import Mathlib

/-!
Verification development for the SailCode-Bridge path-authorization and
bounded file-access core (src/index.js).

The JavaScript source is shallowly embedded: the Node `path` module
(posix semantics: `resolve`, `relative`, `isAbsolute`, `extname`) is
modelled as pure functions on strings, JS numbers are modelled by an
inductive `JsNum` (NaN / infinities / rationals), the filesystem seen by
the directory scanner is an in-memory tree, and every HTTP handler of
the core becomes a pure function from its inputs (request fields, the
configuration object and the relevant disk facts) to its response.
-/

/-! ### Character-level splitting and joining

JS `String.prototype.split(sep)` and Node's internal path-segment
scanning are modelled by one splitter on `List Char`.  `splitAuxC`
returns the chunks between occurrences of `sep`, keeping empty chunks
exactly as `split` does. -/

def splitAuxC (sep : Char) : List Char → List Char → List (List Char)
  | [], cur => [cur.reverse]
  | c :: rest, cur =>
    if c = sep then cur.reverse :: splitAuxC sep rest []
    else splitAuxC sep rest (c :: cur)

/-- Model of JS `s.split(sep)` for a one-character separator. -/
def splitC (sep : Char) (s : String) : List String :=
  (splitAuxC sep s.data []).map String.mk

/-- Model of JS `parts.join(sep)` for a one-character separator. -/
def joinC (sep : Char) : List String → String
  | [] => ""
  | [s] => s
  | s :: rest => s ++ String.mk [sep] ++ joinC sep rest

/-- Model of JS `s.startsWith(p)`. -/
def jsStartsWith (s p : String) : Bool :=
  p.data.isPrefixOf s.data

/-- JS whitespace, in the ASCII forms relevant here (space, tab, line
feed, vertical tab, form feed, carriage return). -/
def isJsSpace (c : Char) : Bool :=
  c = ' ' || c = '\t' || c = '\n' || c = Char.ofNat 11 || c = Char.ofNat 12 || c = '\r'

/-- Model of JS `s.trim()`. -/
def jsTrim (s : String) : String :=
  ⟨((s.data.dropWhile isJsSpace).reverse.dropWhile isJsSpace).reverse⟩

/-- ASCII lower-casing of one character, as `toLowerCase` acts on the
extension strings in play. -/
def lowerChar (c : Char) : Char :=
  if 'A' ≤ c ∧ c ≤ 'Z' then Char.ofNat (c.toNat + 32) else c

/-- Model of JS `s.toLowerCase()`. -/
def jsToLower (s : String) : String :=
  ⟨s.data.map lowerChar⟩

/-- Code-point comparison of strings, modelling the `localeCompare`
ordering used by the scanner's sort (no claim depends on the collation
details, only on the scan being deterministic). -/
def charListLt : List Char → List Char → Bool
  | [], [] => false
  | [], _ :: _ => true
  | _ :: _, [] => false
  | a :: as, b :: bs => if a < b then true else if b < a then false else charListLt as bs

def strLt (a b : String) : Bool := charListLt a.data b.data

/-! ### Node posix path model

`path.resolve` on posix: join the working directory (when the input is
not absolute), split on `/`, drop empty and `.` segments, let `..` pop
the previous segment (disappearing at the root), and re-join under a
leading `/`. -/

/-- Path segments of a raw string: split on `/`, dropping empty chunks. -/
def splitPath (p : String) : List String :=
  (splitC '/' p).filter (fun s => s ≠ "")

/-- One step of posix normalization: `.` is dropped, `..` pops. -/
def normStep (acc : List String) (seg : String) : List String :=
  if seg = "." then acc
  else if seg = ".." then acc.dropLast
  else acc ++ [seg]

def normSegs (l : List String) : List String := l.foldl normStep []

/-- Model of posix `path.isAbsolute`: the first character is `/`. -/
def jsIsAbsolute (p : String) : Bool :=
  p.data.head? == some '/'

/-- Canonical segment list of `path.resolve(p)` run with working directory
`cwd` (an absolute path). -/
def resolveSegs (cwd p : String) : List String :=
  if jsIsAbsolute p then normSegs (splitPath p)
  else normSegs (splitPath cwd ++ splitPath p)

/-- Model of posix `path.resolve(p)` with working directory `cwd`. -/
def resolvePath (cwd p : String) : String :=
  "/" ++ joinC '/' (resolveSegs cwd p)

/-- `normalizePath` from src/index.js:
`(inputPath) => path.resolve(String(inputPath || '').trim())`.
`String(inputPath || '')` is the identity on the string inputs the
handlers pass in (a falsy string is already `''`). -/
def normalizePath (cwd inputPath : String) : String :=
  resolvePath cwd (jsTrim inputPath)

/-- Longest-common-prefix splitter used by the `path.relative` model:
drops the shared leading segments of the two lists. -/
def dropCommon : List String → List String → List String × List String
  | a :: as, b :: bs =>
    if a = b then dropCommon as bs else (a :: as, b :: bs)
  | as, bs => (as, bs)

/-- Model of posix `path.relative(from, to)` with working directory
`cwd`: both arguments are resolved, the common segment prefix is
dropped, and the result climbs with `..` segments before descending. -/
def relativePath (cwd from_ to_ : String) : String :=
  let p := dropCommon (resolveSegs cwd from_) (resolveSegs cwd to_)
  joinC '/' (List.replicate p.1.length ".." ++ p.2)

/-- `isWithinAllowed` from src/index.js, lines 70–80. -/
def isWithinAllowed (cwd targetPath : String) (allowedPaths : List String) : Bool :=
  if allowedPaths.isEmpty then false
  else
    let resolved := normalizePath cwd targetPath
    allowedPaths.any fun base =>
      let root := normalizePath cwd base
      if root = "" then false
      else if resolved = root then true
      else
        let rel := relativePath cwd root resolved
        rel ≠ "" && !(jsStartsWith rel "..") && !(jsIsAbsolute rel)

/-! ### Node `path.extname` and the extension policy -/

/-- Index of the last occurrence of `c`, if any. -/
def lastIdxOf (c : Char) : List Char → Option ℕ
  | [] => none
  | x :: xs =>
    match lastIdxOf c xs with
    | some i => some (i + 1)
    | none => if x = c then some 0 else none

/-- Model of posix `path.extname`: the suffix of the last nonempty path
component from its last dot, except that a dot in leading position
yields no extension (dotfiles such as `.env` have no extension) and the
component `..` yields no extension. -/
def extname (p : String) : String :=
  let b := (((splitC '/' p).filter (fun s => s ≠ "")).getLast?).getD ""
  if b = ".." then ""
  else
    match lastIdxOf '.' b.data with
    | none => ""
    | some 0 => ""
    | some i => String.mk (b.data.drop i)

/-- `isForbiddenExtension` from src/index.js, lines 82–85. -/
def isForbiddenExtension (filePath : String) (forbiddenExtensions : List String) : Bool :=
  forbiddenExtensions.contains (jsToLower (extname filePath))

/-! ### JS numbers

JS numbers reaching the core's comparisons are NaN, ±Infinity, or
finite values; finite values are modelled exactly as rationals (every
value produced by the handlers' arithmetic here is exact). -/

inductive JsNum where
  | nan : JsNum
  | posInf : JsNum
  | negInf : JsNum
  | rat : ℚ → JsNum
deriving DecidableEq

/-- JS `Math.min` on two numbers: NaN-propagating. -/
def jsMin : JsNum → JsNum → JsNum
  | .nan, _ => .nan
  | _, .nan => .nan
  | .negInf, _ => .negInf
  | _, .negInf => .negInf
  | .posInf, b => b
  | a, .posInf => a
  | .rat a, .rat b => .rat (min a b)

/-- JS `n >= x` for a nonnegative-integer left operand (false on NaN). -/
def jsGeNat (n : ℕ) : JsNum → Bool
  | .nan => false
  | .posInf => false
  | .negInf => true
  | .rat q => decide ((n : ℚ) ≥ q)

/-- JS `n > x` for a nonnegative-integer left operand (false on NaN). -/
def jsGtNat (n : ℕ) : JsNum → Bool
  | .nan => false
  | .posInf => false
  | .negInf => true
  | .rat q => decide ((n : ℚ) > q)

/-- JS truthiness of a number: NaN and 0 are falsy. -/
def jsTruthy : JsNum → Bool
  | .nan => false
  | .posInf => true
  | .negInf => true
  | .rat q => decide (q ≠ 0)

/-- JS `x > 0`. -/
def jsPos : JsNum → Bool
  | .nan => false
  | .posInf => true
  | .negInf => false
  | .rat q => decide (q > 0)

/-- `ToIntegerOrInfinity` clamped to a list length, as used by
`Array.prototype.slice(0, x)` for the positive `x` reaching it here. -/
def jsSliceBound (len : ℕ) : JsNum → ℕ
  | .nan => 0
  | .posInf => len
  | .negInf => 0
  | .rat q => min len (max 0 q.floor).toNat

/-! #### JS `Number(string)` -/

def hexDigit? (c : Char) : Option ℕ :=
  if '0' ≤ c ∧ c ≤ '9' then some (c.toNat - 48)
  else if 'a' ≤ c ∧ c ≤ 'f' then some (c.toNat - 87)
  else if 'A' ≤ c ∧ c ≤ 'F' then some (c.toNat - 55)
  else none

/-- Parse a nonempty digit run in base `b`. -/
def parseNatBase (b : ℕ) : List Char → Option ℕ → Option ℕ
  | [], acc => acc
  | c :: rest, acc =>
    match hexDigit? c with
    | some d =>
      if d < b then parseNatBase b rest (some ((acc.getD 0) * b + d)) else none
    | none => none

/-- Decimal mantissa with an optional fractional part. -/
def parseDecMantissa (cs : List Char) : Option ℚ :=
  match cs.splitOn '.' with
  | [ip] => (parseNatBase 10 ip none).map (fun n => (n : ℚ))
  | [ip, fp] =>
    if ip = [] ∧ fp = [] then none
    else
      match parseNatBase 10 ip (if ip = [] then some 0 else none),
            parseNatBase 10 fp (if fp = [] then some 0 else none) with
      | some n, some f => some ((n : ℚ) + (f : ℚ) / ((10 : ℚ) ^ fp.length))
      | _, _ => none
  | _ => none

/-- Decimal literal with an optional exponent part. -/
def parseDecExp (cs : List Char) : Option ℚ :=
  match cs.splitOnP (fun c => c = 'e' ∨ c = 'E') with
  | [m] => parseDecMantissa m
  | [m, e] =>
    let (esign, edigs) :=
      match e with
      | '+' :: r => ((1 : ℤ), r)
      | '-' :: r => ((-1 : ℤ), r)
      | r => ((1 : ℤ), r)
    match parseDecMantissa m, parseNatBase 10 edigs none with
    | some q, some n => some (q * (10 : ℚ) ^ (esign * n))
    | _, _ => none
  | _ => none

/-- Model of JS `Number(s)` on strings: trimmed; empty is 0; `Infinity`
forms; `0x`/`0o`/`0b` integer literals; signed decimal literals with
fraction and exponent; everything else is NaN. -/
def toNumber (s : String) : JsNum :=
  let t := jsTrim s
  if t = "" then .rat 0
  else if t = "Infinity" ∨ t = "+Infinity" then .posInf
  else if t = "-Infinity" then .negInf
  else
    let (sign, body) :=
      match t.data with
      | '+' :: r => ((1 : ℚ), r)
      | '-' :: r => ((-1 : ℚ), r)
      | r => ((1 : ℚ), r)
    match body with
    | '0' :: 'x' :: r => (parseNatBase 16 r none).elim .nan (fun n => if sign = 1 then .rat (n : ℚ) else .nan)
    | '0' :: 'X' :: r => (parseNatBase 16 r none).elim .nan (fun n => if sign = 1 then .rat (n : ℚ) else .nan)
    | '0' :: 'o' :: r => (parseNatBase 8 r none).elim .nan (fun n => if sign = 1 then .rat (n : ℚ) else .nan)
    | '0' :: 'b' :: r => (parseNatBase 2 r none).elim .nan (fun n => if sign = 1 then .rat (n : ℚ) else .nan)
    | _ => (parseDecExp body).elim .nan (fun q => .rat (sign * q))

/-! ### The directory tree and `scanDirTree`

The filesystem seen by the scanner is an in-memory tree: `readdir` on a
directory yields its children's names, `stat` classifies each child and
always succeeds (the source absorbs `stat`/`readdir` failures by
skipping, so an error-free tree is the faithful denotation of what the
scan actually visits). -/

mutual
inductive Entry where
  | file : String → Entry
  | dir : String → Forest → Entry
inductive Forest where
  | nil : Forest
  | cons : Entry → Forest → Forest
end

def Entry.name : Entry → String
  | .file n => n
  | .dir n _ => n

def Entry.isDir : Entry → Bool
  | .file _ => false
  | .dir _ _ => true

def Forest.length : Forest → ℕ
  | .nil => 0
  | .cons _ es => es.length + 1

/-- Stable insertion of an entry into a name-sorted forest; models the
stable `dirents.sort((a, b) => a.localeCompare(b))`. -/
def insertByName (e : Entry) : Forest → Forest
  | .nil => .cons e .nil
  | .cons f fs => if strLt e.name f.name then .cons e (.cons f fs) else .cons f (insertByName e fs)

mutual
def sortTree : Entry → Entry
  | .file n => .file n
  | .dir n cs => .dir n (sortForest cs)
def sortForest : Forest → Forest
  | .nil => .nil
  | .cons e es => insertByName (sortTree e) (sortForest es)
end

structure ScanOpts where
  maxDepth : JsNum
  maxEntries : JsNum
  ignoredDirs : List String

/-- State threaded through the traversal: the emitted display lines and
the shared visited-entry counter. -/
abbrev ScanState := List String × ℕ

/-! `walk(dir, depth, prefix)` from `scanDirTree`, src/index.js lines
91–124, is split into `walkEntry` (the loop body for one dirent:
increment the counter, emit the display line and, for a directory,
re-enter `walk` one level deeper — `walk`'s entry guards inlined) and
`walkEntries` (the `for (const name of dirents)` loop: stop when the
counter has reached `maxEntries`, skip ignored names). -/

mutual
def walkEntry (opts : ScanOpts) : Entry → ℕ → String → ScanState → ScanState
  | .file n, _, pfx, st => (st.1 ++ [pfx ++ "📄 " ++ n], st.2 + 1)
  | .dir n cs, depth, pfx, st =>
    let st1 : ScanState := (st.1 ++ [pfx ++ "📁 " ++ n], st.2 + 1)
    if jsGeNat st1.2 opts.maxEntries then st1
    else if jsGtNat (depth + 1) opts.maxDepth then st1
    else walkEntries opts cs (depth + 1) (pfx ++ "  ") st1
def walkEntries (opts : ScanOpts) : Forest → ℕ → String → ScanState → ScanState
  | .nil, _, _, st => st
  | .cons e rest, depth, pfx, st =>
    if jsGeNat st.2 opts.maxEntries then st
    else if opts.ignoredDirs.contains e.name then walkEntries opts rest depth pfx st
    else walkEntries opts rest depth pfx (walkEntry opts e depth pfx st)
end

/-- `walk` itself: the guards at function entry, then the dirent loop. -/
def walkDir (opts : ScanOpts) (children : Forest) (depth : ℕ) (pfx : String)
    (st : ScanState) : ScanState :=
  if jsGeNat st.2 opts.maxEntries then st
  else if jsGtNat depth opts.maxDepth then st
  else walkEntries opts children depth pfx st

/-- `scanDirTree` from src/index.js lines 87–133, on the in-memory tree
whose root directory has children `t`. -/
def scanDirTree (t : Forest) (opts : ScanOpts) : List String × ℕ :=
  let r := walkDir opts (sortForest t) 0 "" ([], 0)
  if jsGeNat r.2 opts.maxEntries then (r.1 ++ ["…(truncated)"], r.2) else r

/-! `pruneEntry`/`pruneForest` truncate a forest below `fuel` remaining
levels: entries at the current level are kept, children of a directory
are kept only while fuel remains.  Used to state that the scan never
enumerates children of an entry at depth `maxDepth`. -/

mutual
def pruneEntry : ℕ → Entry → Entry
  | _, .file n => .file n
  | 0, .dir n _ => .dir n .nil
  | f + 1, .dir n cs => .dir n (pruneForest f cs)
def pruneForest : ℕ → Forest → Forest
  | _, .nil => .nil
  | f, .cons e es => .cons (pruneEntry f e) (pruneForest f es)
end

/-- A flat directory of `k` files with distinct names, listed in
ascending name order starting at `f<base>`. -/
def mkFlatAux (base : ℕ) : ℕ → Forest
  | 0 => .nil
  | k + 1 => .cons (.file ("f" ++ toString base)) (mkFlatAux (base + 1) k)

/-- A flat directory of `n` files with distinct names. -/
def mkFlat (n : ℕ) : Forest := mkFlatAux 1000 n

/-- A chain of `n` nested directories around a single file: the file
sits at depth `n`. -/
def chainTree : ℕ → Entry
  | 0 => .file "leaf"
  | n + 1 => .dir ("d" ++ toString (n + 1)) (.cons (chainTree n) .nil)

/-! ### Configuration and the HTTP-handler models -/

/-- The configuration fields the core consults (`DEFAULT_CONFIG` shape,
src/index.js lines 15–40). -/
structure BridgeConfig where
  allowedPaths : List String
  activeProjectRoot : String
  maxFileSize : ℕ
  maxReadLines : ℕ
  maxDepth : ℚ
  maxEntries : ℚ
  forbiddenExtensions : List String
  ignoredDirs : List String

def defaultForbiddenExtensions : List String :=
  [".env", ".env.local", ".env.production",
   ".key", ".pem", ".p12", ".pfx",
   ".exe", ".dll", ".so", ".dylib",
   ".zip", ".tar", ".gz", ".rar"]

def defaultIgnoredDirs : List String :=
  ["node_modules", ".git", ".next", ".turbo", "dist", "build", "out"]

def defaultConfig : BridgeConfig where
  allowedPaths := []
  activeProjectRoot := ""
  maxFileSize := 1024 * 1024
  maxReadLines := 10000
  maxDepth := 4
  maxEntries := 800
  forbiddenExtensions := defaultForbiddenExtensions
  ignoredDirs := defaultIgnoredDirs

/-- `req.query.x || config.x` followed by `Number(...)`: an absent or
empty query string falls back to the configured number. -/
def queryNum (q : Option String) (dflt : ℚ) : JsNum :=
  match q with
  | none => .rat dflt
  | some s => if s = "" then .rat dflt else toNumber s

/-- Effective scan depth limit, src/index.js line 260:
`Math.min(Number(req.query.maxDepth || config.maxDepth), 8)`. -/
def effectiveMaxDepth (q : Option String) (cfg : BridgeConfig) : JsNum :=
  jsMin (queryNum q cfg.maxDepth) (.rat 8)

/-- Effective scan entry limit, src/index.js line 261:
`Math.min(Number(req.query.maxEntries || config.maxEntries), 1500)`. -/
def effectiveMaxEntries (q : Option String) (cfg : BridgeConfig) : JsNum :=
  jsMin (queryNum q cfg.maxEntries) (.rat 1500)

inductive ReadOutcome where
  | invalidRequest
  | accessDenied (msg : String)
  | notFound
  | fileTooLarge (size limit : ℕ)
  | ok (path content : String) (size : ℕ) (lineCount : ℕ) (truncated : Bool)
deriving DecidableEq

/-- The `POST /fs/read` handler, src/index.js lines 296–346, as a pure
function of the request body, the configuration, and the disk facts for
the resolved path (existence, stat size, full byte content as text). -/
def fsReadHandler (cwd : String) (cfg : BridgeConfig) (filePath : Option String)
    (maxLines : Option JsNum) (fileExists : Bool) (size : ℕ) (content : String) :
    ReadOutcome :=
  match filePath with
  | none => .invalidRequest
  | some fp =>
    if fp = "" then .invalidRequest
    else
      let resolved := normalizePath cwd fp
      if ! isWithinAllowed cwd resolved cfg.allowedPaths then .accessDenied "Path not allowed"
      else if isForbiddenExtension resolved cfg.forbiddenExtensions then .accessDenied "Forbidden file type"
      else if ! fileExists then .notFound
      else if size > cfg.maxFileSize then .fileTooLarge size cfg.maxFileSize
      else
        let ml := (maxLines.getD (.rat cfg.maxReadLines))
        let lines := splitC '\n' content
        let finalContent :=
          if jsTruthy ml && jsPos ml then
            if jsGtNat lines.length ml then
              joinC '\n' (lines.take (jsSliceBound lines.length ml)) ++ "\n... (truncated)"
            else content
          else content
        .ok fp finalContent size (splitC '\n' finalContent).length (content != finalContent)

inductive FsStat where
  | missing
  | fileAt
  | dirAt
deriving DecidableEq

inductive PathsOutcome where
  | invalidRequest (msg : String)
  | notFound
  | notDirectory
  | ok
deriving DecidableEq

/-- The authorization state mutated by `POST /config/allowed-paths`. -/
structure PathsState where
  allowedPaths : List String
  activeProjectRoot : String
deriving DecidableEq

/-- The `POST /config/allowed-paths` handler, src/index.js lines
364–409, as a pure function of the request body, the stat outcome on
the resolved path, and the current state; returns the response outcome
and the updated state. -/
def allowedPathsHandler (cwd : String) (stat : String → FsStat) (action : Option String)
    (targetPath : Option String) (cfg : PathsState) : PathsOutcome × PathsState :=
  match targetPath with
  | none => (.invalidRequest "path is required", cfg)
  | some tp =>
    if tp = "" then (.invalidRequest "path is required", cfg)
    else
      let resolved := normalizePath cwd tp
      match stat resolved with
      | .missing => (.notFound, cfg)
      | .fileAt => (.notDirectory, cfg)
      | .dirAt =>
        if action = some "add" then
          let ap := if cfg.allowedPaths.contains resolved then cfg.allowedPaths
                    else cfg.allowedPaths ++ [resolved]
          let ar := if cfg.activeProjectRoot = "" then resolved else cfg.activeProjectRoot
          (.ok, ⟨ap, ar⟩)
        else if action = some "remove" then
          let ap := cfg.allowedPaths.filter (fun p => p ≠ resolved)
          let ar := if cfg.activeProjectRoot = resolved then (ap.head?).getD ""
                    else cfg.activeProjectRoot
          (.ok, ⟨ap, ar⟩)
        else if action = some "setActive" then
          if cfg.allowedPaths.contains resolved then (.ok, ⟨cfg.allowedPaths, resolved⟩)
          else (.invalidRequest "Path not in allowlist", cfg)
        else (.invalidRequest "Invalid action", cfg)

/-! ### Spec-side authorization predicate -/

/-- Canonical segment list of a request path: what `normalizePath`
produces, viewed as segments. -/
def canonSegs (cwd p : String) : List String := resolveSegs cwd (jsTrim p)

/-- The spec's notion of authorization (§4.2, §8): after
canonicalization the path equals some authorized root, or its relative
path from some root is non-empty, does not start with a
parent-traversal segment, and is not absolute (a segment-level relative
path is never absolute, so that condition is vacuous here).  Declared
for comparison with `isWithinAllowed`. -/
def isAuthorizedSpec (cwd targetPath : String) (allowed : List String) : Bool :=
  allowed.any fun base =>
    let t := canonSegs cwd targetPath
    let b := canonSegs cwd base
    if t = b then true
    else
      let p := dropCommon b t
      let rel := List.replicate p.1.length ".." ++ p.2
      ! rel.isEmpty && rel.head? != some ".."

/-! ## Claims about the extension policy and the scan limits -/

/-- Claim C2 (code bug): with the default forbidden-extension set (which
contains `".env"`), a read of an authorized file named exactly `.env` is
NOT rejected: Node's `path.extname('.env')` is the empty string, so
`isForbiddenExtension` returns `false` and the read succeeds, contrary
to the claim that it fails with `AccessDenied`. -/
theorem env_read_is_not_denied :
    extname "/home/u/proj/.env" = "" ∧
    isForbiddenExtension "/home/u/proj/.env" defaultForbiddenExtensions = false ∧
    fsReadHandler "/w"
        { defaultConfig with allowedPaths := ["/home/u/proj"] }
        (some "/home/u/proj/.env") none true 8 "SECRET=1"
      = .ok "/home/u/proj/.env" "SECRET=1" 8 1 false :=
  ⟨rfl, rfl, rfl⟩

/-- Claim C3 (code bug): a non-numeric `maxDepth`/`maxEntries` query
value makes `Number(...)` yield NaN, `Math.min(NaN, ceiling)` is NaN,
and every comparison against NaN is false, so neither the depth ceiling
8 nor the entry ceiling 1500 is enforced: a chain of ten nested
directories is fully enumerated (10 entries, reaching depth 9), while
the clamped limits would have stopped at depth 8 (9 entries). -/
theorem nan_limits_escape_clamp :
    effectiveMaxDepth (some "abc") defaultConfig = .nan ∧
    effectiveMaxEntries (some "abc") defaultConfig = .nan ∧
    (scanDirTree (.cons (chainTree 9) .nil) ⟨.nan, .nan, defaultIgnoredDirs⟩).2 = 10 ∧
    (scanDirTree (.cons (chainTree 9) .nil) ⟨.rat 8, .rat 1500, defaultIgnoredDirs⟩).2 = 9 :=
  ⟨rfl, rfl, by decide, by decide⟩

/-- Claim C4 (counterexample): `normalizePath` maps a whitespace-only
input to the canonicalized working directory — a usable filesystem
path, not an "empty" sentinel treated as an error. -/
theorem whitespace_resolves_to_cwd :
    normalizePath "/home/u" "   " = "/home/u" ∧
    normalizePath "/home/u" "   " ≠ "" :=
  ⟨rfl, by decide⟩

/-- Claim C4 (amended): on an input that is empty after trimming,
`normalizePath` returns `path.resolve('')`, the canonicalization of the
working directory itself; no sentinel "empty" result exists. -/
theorem normalizePath_empty_input (cwd s : String) (h : jsTrim s = "") :
    normalizePath cwd s = "/" ++ joinC '/' (normSegs (splitPath cwd)) := by
  have hsplit : splitPath "" = [] := rfl
  have habs : jsIsAbsolute "" = false := rfl
  rw [normalizePath, h, resolvePath, resolveSegs, habs]
  simp [hsplit]

/-- Witness for `normalizePath_empty_input` at a concrete input. -/
theorem normalizePath_empty_input_witness :
    jsTrim "   " = "" ∧
    normalizePath "/home/u" "   " = "/" ++ joinC '/' (normSegs (splitPath "/home/u")) :=
  ⟨rfl, normalizePath_empty_input "/home/u" "   " rfl⟩

/-! ## Claims about the authorization-mutation handler -/

/-- The §3 data-model invariant: ActiveRoot is empty or a member of the
authorized set. -/
def PathsInv (cfg : PathsState) : Prop :=
  cfg.activeProjectRoot = "" ∨ cfg.activeProjectRoot ∈ cfg.allowedPaths

/-- Claim C8 (counterexample): `setActive` on a path that is not in the
authorized set but also does not exist on disk fails with `NotFound`,
not `InvalidRequest` — the stat check runs before the membership
check, so the outcome is not independent of the path's disk state. -/
theorem setActive_missing_path_is_not_found :
    allowedPathsHandler "/w" (fun _ => .missing) (some "setActive") (some "/p")
        ⟨["/q"], "/q"⟩
      = (.notFound, ⟨["/q"], "/q"⟩) ∧
    PathsOutcome.notFound ≠ PathsOutcome.invalidRequest "Path not in allowlist" :=
  ⟨rfl, by decide⟩

/-- Claim C8 (amended): for a target outside the authorized set,
`setActive` fails — with `NotFound` when the path does not exist,
`NotADirectory` when it is not a directory, and `InvalidRequest` when
it is an existing directory — and in every failure case the state
(including ActiveRoot) is unchanged. -/
theorem setActive_not_member_fails (cwd : String) (stat : String → FsStat)
    (tp : String) (cfg : PathsState) (htp : tp ≠ "")
    (hmem : normalizePath cwd tp ∉ cfg.allowedPaths) :
    (stat (normalizePath cwd tp) = .dirAt →
      allowedPathsHandler cwd stat (some "setActive") (some tp) cfg
        = (.invalidRequest "Path not in allowlist", cfg)) ∧
    (stat (normalizePath cwd tp) = .missing →
      allowedPathsHandler cwd stat (some "setActive") (some tp) cfg = (.notFound, cfg)) ∧
    (stat (normalizePath cwd tp) = .fileAt →
      allowedPathsHandler cwd stat (some "setActive") (some tp) cfg = (.notDirectory, cfg)) := by
  refine ⟨fun hstat => ?_, fun hstat => ?_, fun hstat => ?_⟩ <;>
    simp [allowedPathsHandler, htp, hstat, hmem]

/-- Witness for `setActive_not_member_fails` at a concrete input. -/
theorem setActive_not_member_fails_witness :
    ("/p" : String) ≠ "" ∧ normalizePath "/w" "/p" ∉ (["/q"] : List String) ∧
    ((fun _ => FsStat.dirAt) (normalizePath "/w" "/p") = .dirAt →
      allowedPathsHandler "/w" (fun _ => FsStat.dirAt) (some "setActive") (some "/p")
          ⟨["/q"], "/q"⟩
        = (.invalidRequest "Path not in allowlist", ⟨["/q"], "/q"⟩)) :=
  ⟨by decide, by decide,
    (setActive_not_member_fails "/w" (fun _ => FsStat.dirAt) "/p" ⟨["/q"], "/q"⟩
      (by decide) (by decide)).1⟩

/-- Claim C9: every authorization-mutation operation preserves the
invariant that ActiveRoot is empty or a member of the authorized set;
if the set is empty afterwards ActiveRoot is empty; removing the active
root makes ActiveRoot the first remaining member (or empty); adding a
root when none is active makes the new root active. -/
theorem active_root_invariant (cwd : String) (stat : String → FsStat)
    (action : Option String) (tp : Option String) (cfg : PathsState)
    (hinv : PathsInv cfg) :
    PathsInv (allowedPathsHandler cwd stat action tp cfg).2 ∧
    ((allowedPathsHandler cwd stat action tp cfg).2.allowedPaths = [] →
      (allowedPathsHandler cwd stat action tp cfg).2.activeProjectRoot = "") ∧
    (∀ p, tp = some p → p ≠ "" → stat (normalizePath cwd p) = .dirAt →
      action = some "remove" → cfg.activeProjectRoot = normalizePath cwd p →
      (allowedPathsHandler cwd stat action tp cfg).2.activeProjectRoot
        = ((cfg.allowedPaths.filter (fun q => q ≠ normalizePath cwd p)).head?).getD "") ∧
    (∀ p, tp = some p → p ≠ "" → stat (normalizePath cwd p) = .dirAt →
      action = some "add" → cfg.activeProjectRoot = "" →
      (allowedPathsHandler cwd stat action tp cfg).2.activeProjectRoot
        = normalizePath cwd p) := by
  have hheadD : ∀ l : List String, l.head?.getD "" = "" ∨ l.head?.getD "" ∈ l := by
    intro l
    cases l with
    | nil => exact Or.inl rfl
    | cons a t => exact Or.inr (by simp)
  have hmain : PathsInv (allowedPathsHandler cwd stat action tp cfg).2 := by
    rcases tp with _ | p
    · simpa [allowedPathsHandler] using hinv
    · by_cases hp : p = ""
      · simpa [allowedPathsHandler, hp] using hinv
      · cases hstat : stat (normalizePath cwd p) with
        | missing => simpa [allowedPathsHandler, hp, hstat] using hinv
        | fileAt => simpa [allowedPathsHandler, hp, hstat] using hinv
        | dirAt =>
          by_cases hadd : action = some "add"
          · have hgoal : PathsInv
                ⟨if normalizePath cwd p ∈ cfg.allowedPaths then cfg.allowedPaths
                  else cfg.allowedPaths ++ [normalizePath cwd p],
                 if cfg.activeProjectRoot = "" then normalizePath cwd p
                  else cfg.activeProjectRoot⟩ := by
              by_cases hc : normalizePath cwd p ∈ cfg.allowedPaths <;>
                by_cases hact : cfg.activeProjectRoot = ""
              · exact Or.inr (by simp [hc, hact])
              · rcases hinv with h | h
                · exact absurd h hact
                · exact Or.inr (by simp [hc, hact, h])
              · exact Or.inr (by simp [hc, hact])
              · rcases hinv with h | h
                · exact absurd h hact
                · exact Or.inr (by simp [hc, hact, h])
            simpa [allowedPathsHandler, hp, hstat, hadd] using hgoal
          · by_cases hrem : action = some "remove"
            · have hgoal : PathsInv
                  ⟨cfg.allowedPaths.filter (fun q => q ≠ normalizePath cwd p),
                   if cfg.activeProjectRoot = normalizePath cwd p then
                     ((cfg.allowedPaths.filter (fun q => q ≠ normalizePath cwd p)).head?).getD ""
                   else cfg.activeProjectRoot⟩ := by
                by_cases hact : cfg.activeProjectRoot = normalizePath cwd p
                · simpa [PathsInv, hact] using
                    hheadD (cfg.allowedPaths.filter (fun q => q ≠ normalizePath cwd p))
                · rcases hinv with h | h
                  · have hne : ¬("" = normalizePath cwd p) := h ▸ hact
                    exact Or.inl (by simp [h, hne])
                  · refine Or.inr ?_
                    simp only [hact, if_neg, ite_false]
                    exact List.mem_filter.mpr ⟨h, by simpa using hact⟩
              simpa [allowedPathsHandler, hp, hstat, hadd, hrem] using hgoal
            · by_cases hset : action = some "setActive"
              · by_cases hc : cfg.allowedPaths.contains (normalizePath cwd p)
                · refine Or.inr ?_
                  have hm : normalizePath cwd p ∈ cfg.allowedPaths := by simpa using hc
                  simp [allowedPathsHandler, hp, hstat, hadd, hrem, hset, hm]
                · have hm : ¬(normalizePath cwd p ∈ cfg.allowedPaths) := by simpa using hc
                  simpa [allowedPathsHandler, hp, hstat, hadd, hrem, hset, hm] using hinv
              · simpa [allowedPathsHandler, hp, hstat, hadd, hrem, hset] using hinv
  refine ⟨hmain, ?_, ?_, ?_⟩
  · intro h
    rcases hmain with h' | h'
    · exact h'
    · rw [h] at h'
      cases h'
  · intro p hp hpne hstat hact hactive
    subst hp
    subst hact
    simp [allowedPathsHandler, hpne, hstat, hactive]
  · intro p hp hpne hstat hact hactive
    subst hp
    subst hact
    by_cases hc : cfg.allowedPaths.contains (normalizePath cwd p) <;>
      simp [allowedPathsHandler, hpne, hstat, hactive, hc]

/-- Witness for `active_root_invariant` at a concrete input: removing
the active root `/a` from `{/a, /b}` falls back to `/b`. -/
theorem active_root_invariant_witness :
    PathsInv ⟨["/a", "/b"], "/a"⟩ ∧
    (PathsInv (allowedPathsHandler "/w" (fun _ => .dirAt) (some "remove") (some "/a")
        ⟨["/a", "/b"], "/a"⟩).2 ∧
      ((allowedPathsHandler "/w" (fun _ => .dirAt) (some "remove") (some "/a")
          ⟨["/a", "/b"], "/a"⟩).2.allowedPaths = [] →
        (allowedPathsHandler "/w" (fun _ => .dirAt) (some "remove") (some "/a")
          ⟨["/a", "/b"], "/a"⟩).2.activeProjectRoot = "") ∧
      (∀ p, (some "/a" : Option String) = some p → p ≠ "" →
        (fun _ => FsStat.dirAt) (normalizePath "/w" p) = .dirAt →
        (some "remove" : Option String) = some "remove" →
        PathsState.activeProjectRoot ⟨["/a", "/b"], "/a"⟩ = normalizePath "/w" p →
        (allowedPathsHandler "/w" (fun _ => .dirAt) (some "remove") (some "/a")
          ⟨["/a", "/b"], "/a"⟩).2.activeProjectRoot
          = ((List.filter (fun q => q ≠ normalizePath "/w" p) ["/a", "/b"]).head?).getD "") ∧
      (∀ p, (some "/a" : Option String) = some p → p ≠ "" →
        (fun _ => FsStat.dirAt) (normalizePath "/w" p) = .dirAt →
        (some "remove" : Option String) = some "add" →
        PathsState.activeProjectRoot ⟨["/a", "/b"], "/a"⟩ = "" →
        (allowedPathsHandler "/w" (fun _ => .dirAt) (some "remove") (some "/a")
          ⟨["/a", "/b"], "/a"⟩).2.activeProjectRoot = normalizePath "/w" p)) :=
  ⟨Or.inr (by decide),
    active_root_invariant "/w" (fun _ => .dirAt) (some "remove") (some "/a")
      ⟨["/a", "/b"], "/a"⟩ (Or.inr (by decide))⟩

/-! ## Scanner lemmas -/

theorem jsGeNat_rat_natCast (n m : ℕ) : jsGeNat n (.rat (m : ℚ)) = decide (m ≤ n) := by
  simp [jsGeNat, ge_iff_le, Nat.cast_le]

theorem jsGtNat_rat_natCast (n m : ℕ) : jsGtNat n (.rat (m : ℚ)) = decide (m < n) := by
  simp [jsGtNat, Nat.cast_lt]


mutual
theorem walkEntry_spec (opts : ScanOpts) (m : ℕ) (hm : opts.maxEntries = .rat (m : ℚ))
    (e : Entry) (depth : ℕ) (pfx : String) (st : ScanState) (h : st.2 < m) :
    (walkEntry opts e depth pfx st).1.length + st.2
        = st.1.length + (walkEntry opts e depth pfx st).2 ∧
    st.2 ≤ (walkEntry opts e depth pfx st).2 ∧
    (walkEntry opts e depth pfx st).2 ≤ m := by
  cases e with
  | file n =>
    simp only [walkEntry, List.length_append, List.length_cons, List.length_nil]
    refine ⟨by omega, by omega, by omega⟩
  | dir n cs =>
    simp only [walkEntry]
    cases hg : jsGeNat (st.2 + 1) opts.maxEntries with
    | true =>
      simp only [if_true, List.length_append, List.length_cons, List.length_nil]
      refine ⟨by omega, by omega, by omega⟩
    | false =>
      rw [hm, jsGeNat_rat_natCast] at hg
      have hg' : ¬ (m ≤ st.2 + 1) := of_decide_eq_false hg
      simp only [Bool.false_eq_true, if_false]
      cases hb : jsGtNat (depth + 1) opts.maxDepth with
      | true =>
        simp only [if_true, List.length_append, List.length_cons, List.length_nil]
        refine ⟨by omega, by omega, by omega⟩
      | false =>
        simp only [Bool.false_eq_true, if_false]
        have hrec := walkEntries_spec opts m hm cs (depth + 1) (pfx ++ "  ")
          (st.1 ++ [pfx ++ "📁 " ++ n], st.2 + 1) (by omega)
        simp only [List.length_append, List.length_cons, List.length_nil] at hrec
        refine ⟨by omega, by omega, by omega⟩

theorem walkEntries_spec (opts : ScanOpts) (m : ℕ) (hm : opts.maxEntries = .rat (m : ℚ))
    (l : Forest) (depth : ℕ) (pfx : String) (st : ScanState) (h : st.2 ≤ m) :
    (walkEntries opts l depth pfx st).1.length + st.2
        = st.1.length + (walkEntries opts l depth pfx st).2 ∧
    st.2 ≤ (walkEntries opts l depth pfx st).2 ∧
    (walkEntries opts l depth pfx st).2 ≤ m := by
  cases l with
  | nil =>
    simp [walkEntries]
    omega
  | cons e rest =>
    simp only [walkEntries]
    cases hg : jsGeNat st.2 opts.maxEntries with
    | true =>
      simp [walkEntries]
      omega
    | false =>
      rw [hm, jsGeNat_rat_natCast] at hg
      have hg' : ¬ (m ≤ st.2) := of_decide_eq_false hg
      simp only [Bool.false_eq_true, if_false]
      cases hi : opts.ignoredDirs.contains (Entry.name e) with
      | true =>
        simp only [if_true]
        exact walkEntries_spec opts m hm rest depth pfx st h
      | false =>
        simp only [Bool.false_eq_true, if_false]
        have he := walkEntry_spec opts m hm e depth pfx st (by omega)
        have hrec := walkEntries_spec opts m hm rest depth pfx
          (walkEntry opts e depth pfx st) he.2.2
        refine ⟨by omega, by omega, hrec.2.2⟩
end

theorem pruneEntry_name (f : ℕ) (e : Entry) : (pruneEntry f e).name = e.name := by
  cases e <;> cases f <;> rfl

theorem insertByName_prune (f : ℕ) (e : Entry) (l : Forest) :
    insertByName (pruneEntry f e) (pruneForest f l) = pruneForest f (insertByName e l) := by
  cases l with
  | nil => cases e <;> cases f <;> rfl
  | cons g gs =>
    have ih := insertByName_prune f e gs
    simp only [pruneForest, insertByName, pruneEntry_name]
    cases hlt : strLt (Entry.name e) (Entry.name g) with
    | true => simp [pruneForest]
    | false => simp [pruneForest, ih]

mutual
theorem sortTree_prune (f : ℕ) (e : Entry) :
    sortTree (pruneEntry f e) = pruneEntry f (sortTree e) := by
  cases e with
  | file n => cases f <;> rfl
  | dir n cs =>
    cases f with
    | zero => rfl
    | succ f' => simp only [pruneEntry, sortTree, sortForest_prune f' cs]

theorem sortForest_prune (f : ℕ) (l : Forest) :
    sortForest (pruneForest f l) = pruneForest f (sortForest l) := by
  cases l with
  | nil => rfl
  | cons e es =>
    simp only [pruneForest, sortForest, sortTree_prune f e, sortForest_prune f es,
      insertByName_prune]
end

/-- `walkEntry` on a directory is `walk` one level deeper on its
children, after the counter bump and line push. -/
theorem walkEntry_dir_eq (opts : ScanOpts) (n : String) (cs : Forest) (depth : ℕ)
    (pfx : String) (st : ScanState) :
    walkEntry opts (.dir n cs) depth pfx st
      = walkDir opts cs (depth + 1) (pfx ++ "  ") (st.1 ++ [pfx ++ "📁 " ++ n], st.2 + 1) := rfl

mutual
/-- With the depth limit `d`, processing one dirent at depth `depth`
never looks below `depth + fuel` levels once `d ≤ depth + fuel`: the
pruned entry produces the identical state. -/
theorem walkEntry_prune (opts : ScanOpts) (d : ℕ) (hd : opts.maxDepth = .rat (d : ℚ))
    (e : Entry) (depth : ℕ) (pfx : String) (st : ScanState) (fuel : ℕ)
    (hfuel : d ≤ depth + fuel) :
    walkEntry opts (pruneEntry fuel e) depth pfx st = walkEntry opts e depth pfx st := by
  cases e with
  | file n => cases fuel <;> rfl
  | dir n cs =>
    cases fuel with
    | zero =>
      have hgt : jsGtNat (depth + 1) opts.maxDepth = true := by
        rw [hd, jsGtNat_rat_natCast]
        exact decide_eq_true (by omega)
      show walkDir opts .nil (depth + 1) (pfx ++ "  ") (st.1 ++ [pfx ++ "📁 " ++ n], st.2 + 1)
        = walkDir opts cs (depth + 1) (pfx ++ "  ") (st.1 ++ [pfx ++ "📁 " ++ n], st.2 + 1)
      simp only [walkDir, hgt]
      cases hg : jsGeNat (st.2 + 1) opts.maxEntries <;> simp [hg]
    | succ f =>
      show walkDir opts (pruneForest f cs) (depth + 1) (pfx ++ "  ")
          (st.1 ++ [pfx ++ "📁 " ++ n], st.2 + 1)
        = walkDir opts cs (depth + 1) (pfx ++ "  ") (st.1 ++ [pfx ++ "📁 " ++ n], st.2 + 1)
      simp only [walkDir]
      cases hg : jsGeNat (st.2 + 1) opts.maxEntries with
      | true => rfl
      | false =>
        cases hb : jsGtNat (depth + 1) opts.maxDepth with
        | true => rfl
        | false =>
          simp only [Bool.false_eq_true, if_false]
          exact walkEntries_prune opts d hd cs (depth + 1) (pfx ++ "  ")
            (st.1 ++ [pfx ++ "📁 " ++ n], st.2 + 1) f (by omega)

/-- Forest version of `walkEntry_prune`. -/
theorem walkEntries_prune (opts : ScanOpts) (d : ℕ) (hd : opts.maxDepth = .rat (d : ℚ))
    (l : Forest) (depth : ℕ) (pfx : String) (st : ScanState) (fuel : ℕ)
    (hfuel : d ≤ depth + fuel) :
    walkEntries opts (pruneForest fuel l) depth pfx st = walkEntries opts l depth pfx st := by
  cases l with
  | nil => rfl
  | cons e rest =>
    simp only [pruneForest, walkEntries, pruneEntry_name]
    cases hg : jsGeNat st.2 opts.maxEntries with
    | true => rfl
    | false =>
      cases hi : opts.ignoredDirs.contains (Entry.name e) with
      | true =>
        simp only [if_true]
        exact walkEntries_prune opts d hd rest depth pfx st fuel hfuel
      | false =>
        simp only [Bool.false_eq_true, if_false]
        rw [walkEntry_prune opts d hd e depth pfx st fuel hfuel]
        exact walkEntries_prune opts d hd rest depth pfx
          (walkEntry opts e depth pfx st) fuel hfuel
end

/-- `walk` itself never enumerates below the depth limit. -/
theorem walkDir_prune (opts : ScanOpts) (d : ℕ) (hd : opts.maxDepth = .rat (d : ℚ))
    (l : Forest) (depth : ℕ) (pfx : String) (st : ScanState) (fuel : ℕ)
    (hfuel : d ≤ depth + fuel) :
    walkDir opts (pruneForest fuel l) depth pfx st = walkDir opts l depth pfx st := by
  simp only [walkDir]
  cases hg : jsGeNat st.2 opts.maxEntries with
  | true => rfl
  | false =>
    cases hb : jsGtNat depth opts.maxDepth with
    | true => rfl
    | false =>
      simp only [Bool.false_eq_true, if_false]
      exact walkEntries_prune opts d hd l depth pfx st fuel hfuel

/-- The scan result only depends on the tree up to the depth limit:
pruning everything below `maxDepth` leaves the output unchanged. -/
theorem scanDirTree_prune (t : Forest) (ign : List String) (mE : JsNum) (d : ℕ) :
    scanDirTree (pruneForest d t) ⟨.rat (d : ℚ), mE, ign⟩
      = scanDirTree t ⟨.rat (d : ℚ), mE, ign⟩ := by
  simp only [scanDirTree]
  rw [sortForest_prune,
    walkDir_prune ⟨.rat (d : ℚ), mE, ign⟩ d rfl (sortForest t) 0 "" ([], 0) d (by omega)]

/-- Claim C5: for every tree, ignored-name set and limits `m` (entries)
and `d` (depth), the traversal emits exactly as many real entry lines
as its counter and at most `m` of them; the final output adds at most
one truncation marker; and the output equals the scan of the tree
pruned below depth `maxDepth` — children of an entry at depth
`maxDepth` are never enumerated. -/
theorem scan_bounded (t : Forest) (ign : List String) (m d : ℕ) :
    (walkDir ⟨.rat (d : ℚ), .rat (m : ℚ), ign⟩ (sortForest t) 0 "" ([], 0)).1.length
        = (walkDir ⟨.rat (d : ℚ), .rat (m : ℚ), ign⟩ (sortForest t) 0 "" ([], 0)).2 ∧
    (scanDirTree t ⟨.rat (d : ℚ), .rat (m : ℚ), ign⟩).2 ≤ m ∧
    (scanDirTree t ⟨.rat (d : ℚ), .rat (m : ℚ), ign⟩).1.length
        ≤ (scanDirTree t ⟨.rat (d : ℚ), .rat (m : ℚ), ign⟩).2 + 1 ∧
    scanDirTree (pruneForest d t) ⟨.rat (d : ℚ), .rat (m : ℚ), ign⟩
      = scanDirTree t ⟨.rat (d : ℚ), .rat (m : ℚ), ign⟩ := by
  have hb : jsGtNat 0 (JsNum.rat (d : ℚ)) = false := by
    rw [jsGtNat_rat_natCast]
    exact decide_eq_false (by omega)
  have key : (walkDir ⟨.rat (d : ℚ), .rat (m : ℚ), ign⟩ (sortForest t) 0 "" ([], 0)).1.length
        = (walkDir ⟨.rat (d : ℚ), .rat (m : ℚ), ign⟩ (sortForest t) 0 "" ([], 0)).2 ∧
      (walkDir ⟨.rat (d : ℚ), .rat (m : ℚ), ign⟩ (sortForest t) 0 "" ([], 0)).2 ≤ m := by
    simp only [walkDir, hb]
    cases hg : jsGeNat 0 (JsNum.rat (m : ℚ)) with
    | true => simp
    | false =>
      have he := walkEntries_spec ⟨.rat (d : ℚ), .rat (m : ℚ), ign⟩ m rfl
        (sortForest t) 0 "" ([], 0) (by omega)
      simp only [List.length_nil] at he
      simp only [Bool.false_eq_true, if_false]
      exact ⟨by omega, he.2.2⟩
  refine ⟨key.1, ?_, ?_, scanDirTree_prune t ign (.rat (m : ℚ)) d⟩
  · simp only [scanDirTree]
    cases hmark : jsGeNat
        (walkDir ⟨.rat (d : ℚ), .rat (m : ℚ), ign⟩ (sortForest t) 0 "" ([], 0)).2
        (JsNum.rat (m : ℚ)) <;> simp [hmark, key.2]
  · simp only [scanDirTree]
    cases hmark : jsGeNat
        (walkDir ⟨.rat (d : ℚ), .rat (m : ℚ), ign⟩ (sortForest t) 0 "" ([], 0)).2
        (JsNum.rat (m : ℚ)) <;> simp [hmark] <;> omega

/-- All entries of a forest are plain files. -/
def allFilesB : Forest → Bool
  | .nil => true
  | .cons (.file _) es => allFilesB es
  | .cons (.dir _ _) _ => false

/-- The display lines the scan produces for a forest of files. -/
def fileLines (pfx : String) : Forest → List String
  | .nil => []
  | .cons e es => (pfx ++ "📄 " ++ e.name) :: fileLines pfx es

theorem length_insertByName (e : Entry) (l : Forest) :
    (insertByName e l).length = l.length + 1 := by
  cases l with
  | nil => rfl
  | cons g gs =>
    have ih := length_insertByName e gs
    simp only [insertByName]
    cases hlt : strLt (Entry.name e) (Entry.name g) <;> simp [Forest.length, ih]

theorem allFilesB_insert (n : String) (l : Forest) (hf : allFilesB l = true) :
    allFilesB (insertByName (.file n) l) = true := by
  cases l with
  | nil => rfl
  | cons g gs =>
    cases g with
    | file s =>
      have ih := allFilesB_insert n gs (by simpa [allFilesB] using hf)
      simp only [insertByName]
      cases hlt : strLt (Entry.name (.file n)) (Entry.name (.file s)) with
      | true => simpa [allFilesB] using hf
      | false => simpa [allFilesB] using ih
    | dir s cs => simp [allFilesB] at hf

theorem length_sortForest (l : Forest) : (sortForest l).length = l.length := by
  cases l with
  | nil => rfl
  | cons e es =>
    have ih := length_sortForest es
    simp [sortForest, length_insertByName, ih, Forest.length]

theorem allFilesB_sortForest (l : Forest) (hf : allFilesB l = true) :
    allFilesB (sortForest l) = true := by
  cases l with
  | nil => rfl
  | cons e es =>
    cases e with
    | file n =>
      have ih := allFilesB_sortForest es (by simpa [allFilesB] using hf)
      simpa [sortForest, sortTree] using allFilesB_insert n (sortForest es) ih
    | dir s cs => simp [allFilesB] at hf

theorem length_mkFlatAux (b k : ℕ) : (mkFlatAux b k).length = k := by
  induction k generalizing b with
  | zero => rfl
  | succ k ih => simp [mkFlatAux, Forest.length, ih]

theorem allFilesB_mkFlatAux (b k : ℕ) : allFilesB (mkFlatAux b k) = true := by
  induction k generalizing b with
  | zero => rfl
  | succ k ih => simpa [mkFlatAux, allFilesB] using ih (b + 1)

theorem length_fileLines (pfx : String) (l : Forest) :
    (fileLines pfx l).length = l.length := by
  cases l with
  | nil => rfl
  | cons e es => simp [fileLines, Forest.length, length_fileLines pfx es]

/-- On a forest of files that fits under the entry limit, the dirent
loop lists every file and counts each one. -/
theorem walkEntries_files (opts : ScanOpts) (m : ℕ) (hm : opts.maxEntries = .rat (m : ℚ))
    (hign : opts.ignoredDirs = []) (l : Forest) (hf : allFilesB l = true)
    (depth : ℕ) (pfx : String) (st : ScanState) (h : st.2 + l.length ≤ m) :
    walkEntries opts l depth pfx st = (st.1 ++ fileLines pfx l, st.2 + l.length) := by
  cases l with
  | nil => simp [walkEntries, fileLines, Forest.length]
  | cons e rest =>
    cases e with
    | dir s cs => simp [allFilesB] at hf
    | file n =>
      have hlcons : (Forest.cons (Entry.file n) rest).length = rest.length + 1 := rfl
      have hg : jsGeNat st.2 opts.maxEntries = false := by
        rw [hm, jsGeNat_rat_natCast]
        exact decide_eq_false (by omega)
      have hi : opts.ignoredDirs.contains (Entry.name (.file n)) = false := by
        rw [hign]
        rfl
      have ih := walkEntries_files opts m hm hign rest (by simpa [allFilesB] using hf)
        depth pfx (st.1 ++ [pfx ++ "📄 " ++ n], st.2 + 1) (by omega)
      simp only [walkEntries, hg, hi, Bool.false_eq_true, if_false, walkEntry]
      rw [ih]
      refine Prod.ext ?_ ?_
      · simp [fileLines, List.append_assoc, Entry.name]
      · simp [Forest.length]
        omega

/-- Claim C10: scanning a flat directory of exactly `n` files with
`maxEntries = n` lists all `n` files — nothing is omitted — and still
appends the truncation marker, because the counter has reached the
limit. -/
theorem scan_exact_fit_truncation (n d : ℕ) :
    (scanDirTree (mkFlat n) ⟨.rat (d : ℚ), .rat (n : ℚ), []⟩).1
        = fileLines "" (sortForest (mkFlat n)) ++ ["…(truncated)"] ∧
    (scanDirTree (mkFlat n) ⟨.rat (d : ℚ), .rat (n : ℚ), []⟩).2 = n ∧
    (fileLines "" (sortForest (mkFlat n))).length = n := by
  have hlen : (sortForest (mkFlat n)).length = n := by
    rw [length_sortForest]
    exact length_mkFlatAux 1000 n
  have hfl : (fileLines "" (sortForest (mkFlat n))).length = n := by
    rw [length_fileLines]
    exact hlen
  have hfiles : allFilesB (sortForest (mkFlat n)) = true :=
    allFilesB_sortForest _ (allFilesB_mkFlatAux 1000 n)
  have hb : jsGtNat 0 (JsNum.rat (d : ℚ)) = false := by
    rw [jsGtNat_rat_natCast]
    exact decide_eq_false (by omega)
  have hwalk : walkDir ⟨.rat (d : ℚ), .rat (n : ℚ), []⟩ (sortForest (mkFlat n)) 0 "" ([], 0)
      = (fileLines "" (sortForest (mkFlat n)), n) := by
    cases hg0 : jsGeNat 0 (JsNum.rat (n : ℚ)) with
    | true =>
      rw [jsGeNat_rat_natCast] at hg0
      have hn0 : n = 0 := by
        have := of_decide_eq_true hg0
        omega
      subst hn0
      rfl
    | false =>
      have hrun := walkEntries_files ⟨.rat (d : ℚ), .rat (n : ℚ), []⟩ n rfl rfl
        (sortForest (mkFlat n)) hfiles 0 "" ([], 0) (by simp [hlen])
      simp only [walkDir, hg0, hb, Bool.false_eq_true, if_false]
      rw [hrun]
      simp [hlen]
  have hmark : jsGeNat n (JsNum.rat (n : ℚ)) = true := by
    rw [jsGeNat_rat_natCast]
    exact decide_eq_true (le_refl n)
  refine ⟨?_, ?_, hfl⟩ <;> simp [scanDirTree, hwalk, hmark]

/-! ## Path lemmas for the authorization characterization -/

theorem splitAuxC_no_sep (sep : Char) (cs cur : List Char) (h : ∀ c ∈ cs, c ≠ sep) :
    splitAuxC sep cs cur = [cur.reverse ++ cs] := by
  induction cs generalizing cur with
  | nil => simp [splitAuxC]
  | cons c rest ih =>
    have hc : c ≠ sep := h c (by simp)
    simp only [splitAuxC, if_neg hc]
    rw [ih (c :: cur) (fun x hx => h x (by simp [hx]))]
    simp

theorem splitAuxC_append_sep (sep : Char) (cs rest cur : List Char) (h : ∀ c ∈ cs, c ≠ sep) :
    splitAuxC sep (cs ++ sep :: rest) cur = (cur.reverse ++ cs) :: splitAuxC sep rest [] := by
  induction cs generalizing cur with
  | nil => simp [splitAuxC]
  | cons c cs' ih =>
    have hc : c ≠ sep := h c (by simp)
    simp only [List.cons_append, splitAuxC, if_neg hc, List.append_eq]
    rw [ih (c :: cur) (fun x hx => h x (by simp [hx]))]
    simp

theorem splitAuxC_pieces (sep : Char) (cs cur : List Char) (hcur : sep ∉ cur) :
    ∀ p ∈ splitAuxC sep cs cur, sep ∉ p := by
  induction cs generalizing cur with
  | nil =>
    intro p hp
    simp only [splitAuxC, List.mem_singleton] at hp
    subst hp
    simpa using hcur
  | cons c rest ih =>
    intro p hp
    by_cases hc : c = sep
    · subst hc
      simp only [splitAuxC, if_pos rfl] at hp
      rcases List.mem_cons.mp hp with h1 | h1
      · subst h1
        simpa using hcur
      · exact ih [] (by simp) p h1
    · simp only [splitAuxC, if_neg hc] at hp
      refine ih (c :: cur) ?_ p hp
      simp only [List.mem_cons]
      rintro (h1 | h1)
      · exact hc h1.symm
      · exact hcur h1

theorem splitPath_mem (p : String) : ∀ s ∈ splitPath p, s ≠ "" ∧ '/' ∉ s.data := by
  intro s hs
  simp only [splitPath, List.mem_filter, splitC, List.mem_map, decide_eq_true_eq] at hs
  obtain ⟨⟨piece, hpiece, hmk⟩, hne⟩ := hs
  subst hmk
  refine ⟨hne, ?_⟩
  exact splitAuxC_pieces '/' p.data [] (by simp) piece hpiece

/-- A canonical path segment: nonempty, not a dot segment, and free of
separators. -/
def goodSeg (s : String) : Prop :=
  s ≠ "" ∧ s ≠ "." ∧ s ≠ ".." ∧ '/' ∉ s.data

theorem foldl_normStep_good (l : List String) (acc : List String)
    (hl : ∀ s ∈ l, s ≠ "" ∧ '/' ∉ s.data) (hacc : ∀ s ∈ acc, goodSeg s) :
    ∀ s ∈ l.foldl normStep acc, goodSeg s := by
  induction l generalizing acc with
  | nil => simpa using hacc
  | cons x xs ih =>
    intro s hs
    refine ih (normStep acc x) (fun u hu => hl u (by simp [hu])) ?_ s hs
    intro u hu
    unfold normStep at hu
    by_cases h1 : x = "."
    · rw [if_pos h1] at hu
      exact hacc u hu
    · by_cases h2 : x = ".."
      · rw [if_neg h1, if_pos h2] at hu
        exact hacc u (List.dropLast_subset acc hu)
      · rw [if_neg h1, if_neg h2] at hu
        rcases List.mem_append.mp hu with h | h
        · exact hacc u h
        · have hux : u = x := by simpa using h
          subst hux
          obtain ⟨ha, hb⟩ := hl u (by simp)
          exact ⟨ha, h1, h2, hb⟩

theorem resolveSegs_good (cwd p : String) : ∀ s ∈ resolveSegs cwd p, goodSeg s := by
  unfold resolveSegs
  by_cases habs : jsIsAbsolute p = true
  · rw [if_pos habs]
    exact foldl_normStep_good _ [] (splitPath_mem p) (by simp)
  · rw [if_neg habs]
    refine foldl_normStep_good _ [] ?_ (by simp)
    intro s hs
    rcases List.mem_append.mp hs with h | h
    · exact splitPath_mem cwd s h
    · exact splitPath_mem p s h

theorem canonSegs_good (cwd p : String) : ∀ s ∈ canonSegs cwd p, goodSeg s :=
  resolveSegs_good cwd (jsTrim p)

theorem normSegs_id (l : List String) (h : ∀ s ∈ l, s ≠ "." ∧ s ≠ "..") :
    normSegs l = l := by
  suffices hgen : ∀ acc, l.foldl normStep acc = acc ++ l by simpa using hgen []
  induction l with
  | nil => simp
  | cons x xs ih =>
    intro acc
    have hx := h x (by simp)
    have hstep : normStep acc x = acc ++ [x] := by
      unfold normStep
      rw [if_neg hx.1, if_neg hx.2]
    rw [List.foldl_cons, hstep, ih (fun s hs => h s (by simp [hs])) (acc ++ [x])]
    simp

theorem data_slash_append (x : String) : ("/" ++ x).data = '/' :: x.data := rfl

/-- Splitting a canonical absolute path recovers its segments. -/
theorem splitPath_slash_join (segs : List String)
    (h : ∀ s ∈ segs, s ≠ "" ∧ '/' ∉ s.data) :
    splitPath ("/" ++ joinC '/' segs) = segs := by
  induction segs with
  | nil => decide
  | cons s rest ih =>
    obtain ⟨hs_ne, hs_slash⟩ := h s (by simp)
    cases rest with
    | nil =>
      simp only [splitPath, splitC, data_slash_append, joinC]
      simp only [splitAuxC, if_pos rfl, List.reverse_nil]
      rw [splitAuxC_no_sep '/' s.data [] (fun c hc hceq => hs_slash (hceq ▸ hc))]
      simp [hs_ne]
    | cons s2 rest2 =>
      have hdata : ("/" ++ joinC '/' (s :: s2 :: rest2)).data
          = '/' :: (s.data ++ '/' :: (joinC '/' (s2 :: rest2)).data) := by
        simp [joinC, data_slash_append]
      have hdata2 : ("/" ++ joinC '/' (s2 :: rest2)).data
          = '/' :: (joinC '/' (s2 :: rest2)).data := rfl
      have hrec := ih (fun u hu => h u (by simp [hu]))
      simp only [splitPath, splitC, hdata2, splitAuxC, if_true, if_pos, List.reverse_nil,
        List.append_eq, List.nil_append, List.singleton_append] at hrec
      simp only [splitPath, splitC, hdata, splitAuxC, if_true, if_pos, List.reverse_nil,
        List.append_eq, List.nil_append, List.append_assoc, List.singleton_append]
      rw [splitAuxC_append_sep '/' s.data (joinC '/' (s2 :: rest2)).data []
        (fun c hc hceq => hs_slash (hceq ▸ hc))]
      have hmknil : String.mk [] = "" := rfl
      have hmks : String.mk s.data = s := rfl
      simp only [List.reverse_nil, List.nil_append, List.map_cons, List.filter_cons,
        hmknil, hmks] at hrec ⊢
      have hempty : (decide (("" : String) ≠ "")) = false := by decide
      simp only [hempty, Bool.false_eq_true, if_false] at hrec ⊢
      rw [if_pos (by simpa using hs_ne)]
      rw [hrec]

theorem jsIsAbsolute_slash (x : String) : jsIsAbsolute ("/" ++ x) = true := rfl

/-- Resolving an already-resolved path changes nothing. -/
theorem resolveSegs_resolvePath (cwd p : String) :
    resolveSegs cwd (resolvePath cwd p) = resolveSegs cwd p := by
  have hgood := resolveSegs_good cwd p
  unfold resolvePath
  rw [resolveSegs, if_pos (jsIsAbsolute_slash _)]
  rw [splitPath_slash_join (resolveSegs cwd p)
    (fun s hs => ⟨(hgood s hs).1, (hgood s hs).2.2.2⟩)]
  exact normSegs_id _ (fun s hs => ⟨(hgood s hs).2.1, (hgood s hs).2.2.1⟩)

theorem dropCommon_append (a r : List String) : dropCommon a (a ++ r) = ([], r) := by
  induction a with
  | nil => rfl
  | cons x xs ih => simpa [dropCommon] using ih

theorem dropCommon_fst_nil (a b : List String) (h : (dropCommon a b).1 = []) :
    b = a ++ (dropCommon a b).2 := by
  induction a generalizing b with
  | nil => rfl
  | cons x xs ih =>
    cases b with
    | nil => simp [dropCommon] at h
    | cons y ys =>
      by_cases hxy : x = y
      · subst hxy
        simp only [dropCommon, if_pos rfl] at h ⊢
        rw [List.cons_append]
        exact congrArg (x :: ·) (ih ys h)
      · simp [dropCommon, hxy] at h

theorem joinC_data_cons (sep : Char) (s : String) (rest : List String) :
    ∃ t, (joinC sep (s :: rest)).data = s.data ++ t ∧ (t = [] ∨ ∃ t', t = sep :: t') := by
  cases rest with
  | nil => exact ⟨[], by simp [joinC], Or.inl rfl⟩
  | cons r rest' =>
    refine ⟨sep :: (joinC sep (r :: rest')).data, ?_, Or.inr ⟨_, rfl⟩⟩
    show (s ++ String.mk [sep] ++ joinC sep (r :: rest')).data = _
    simp

theorem joinC_cons_ne_empty (s : String) (rest : List String) (hs : s ≠ "") :
    joinC '/' (s :: rest) ≠ "" := by
  obtain ⟨t, ht, _⟩ := joinC_data_cons '/' s rest
  intro hcontra
  apply hs
  apply String.ext
  have h2 : (joinC '/' (s :: rest)).data = [] := by rw [hcontra]
  rw [ht] at h2
  simpa using (List.append_eq_nil.mp h2).1

theorem dotdot_data : (".." : String).data = ['.', '.'] := rfl

/-- A joined segment list starts with `..` (as a string) exactly when
its first segment does, provided that segment is a canonical one. -/
theorem jsStartsWith_joinC_dotdot (s : String) (rest : List String)
    (hne : s ≠ "") (hdot : s ≠ ".") :
    jsStartsWith (joinC '/' (s :: rest)) ".." = jsStartsWith s ".." := by
  obtain ⟨t, ht, hcase⟩ := joinC_data_cons '/' s rest
  simp only [jsStartsWith, ht, dotdot_data]
  cases hsd : s.data with
  | nil => exact absurd (String.ext hsd) hne
  | cons c cs =>
    cases cs with
    | nil =>
      have hc : c ≠ '.' := by
        intro hcontra
        apply hdot
        apply String.ext
        rw [hsd, hcontra]
      rcases hcase with h0 | ⟨t', h0⟩
      · subst h0
        simp [List.isPrefixOf, hc]
      · subst h0
        simp [List.isPrefixOf, hc]
    | cons c2 cs2 => simp [List.isPrefixOf]

/-- A relative path that climbs starts with `..`. -/
theorem jsStartsWith_dotdot_cons (rest : List String) :
    jsStartsWith (joinC '/' (".." :: rest)) ".." = true := by
  obtain ⟨t, ht, _⟩ := joinC_data_cons '/' ".." rest
  simp [jsStartsWith, ht, dotdot_data, List.isPrefixOf]

/-- A joined segment list is never an absolute path when its first
segment is canonical. -/
theorem jsIsAbsolute_joinC (s : String) (rest : List String)
    (hne : s ≠ "") (hns : '/' ∉ s.data) :
    jsIsAbsolute (joinC '/' (s :: rest)) = false := by
  obtain ⟨t, ht, _⟩ := joinC_data_cons '/' s rest
  simp only [jsIsAbsolute, ht]
  cases hsd : s.data with
  | nil => exact absurd (String.ext hsd) hne
  | cons c cs =>
    have hc : c ≠ '/' := by
      intro hcontra
      apply hns
      rw [hsd, hcontra]
      simp
    simp [hc]

theorem normalizePath_ne_empty (cwd q : String) : normalizePath cwd q ≠ "" := by
  intro hq
  have h2 : (normalizePath cwd q).data
      = '/' :: (joinC '/' (resolveSegs cwd (jsTrim q))).data := rfl
  rw [hq] at h2
  simp at h2

theorem relativePath_normalized (cwd x y : String) :
    relativePath cwd (normalizePath cwd x) (normalizePath cwd y)
      = joinC '/' (List.replicate (dropCommon (canonSegs cwd x) (canonSegs cwd y)).1.length ".."
          ++ (dropCommon (canonSegs cwd x) (canonSegs cwd y)).2) := by
  have hx : resolveSegs cwd (normalizePath cwd x) = canonSegs cwd x := by
    show resolveSegs cwd (resolvePath cwd (jsTrim x)) = canonSegs cwd x
    exact resolveSegs_resolvePath cwd (jsTrim x)
  have hy : resolveSegs cwd (normalizePath cwd y) = canonSegs cwd y := by
    show resolveSegs cwd (resolvePath cwd (jsTrim y)) = canonSegs cwd y
    exact resolveSegs_resolvePath cwd (jsTrim y)
  simp only [relativePath, normalizePath] at hx hy ⊢
  rw [hx, hy]

/-- Claim C1 (amended): `isWithinAllowed` is false on the empty root
set; otherwise it authorizes exactly the paths whose canonicalization
equals the canonicalization of some root, or extends some root by at
least one segment with the first new segment not beginning with the two
characters `..`.  Authorization therefore implies canonical containment
(traversal-proofness).  The difference from the claim as stated: a
genuine canonical descendant whose first relative segment merely begins
with the characters `..` (such as `/a/..b` under root `/a`) is also
rejected, because the code tests `rel.startsWith('..')` on the raw
relative string. -/
theorem isWithinAllowed_characterization (cwd t : String) (R : List String) :
    isWithinAllowed cwd t [] = false ∧
    (isWithinAllowed cwd t R = true ↔
      ∃ b ∈ R, normalizePath cwd t = normalizePath cwd b ∨
        ∃ s rest, canonSegs cwd t = canonSegs cwd b ++ s :: rest ∧
          jsStartsWith s ".." = false) := by
  refine ⟨rfl, ?_⟩
  constructor
  · intro h
    unfold isWithinAllowed at h
    by_cases hemp : R.isEmpty = true
    · rw [if_pos hemp] at h
      exact absurd h (by simp)
    · rw [if_neg hemp] at h
      obtain ⟨b, hbR, hb⟩ := List.any_eq_true.mp h
      refine ⟨b, hbR, ?_⟩
      simp only at hb
      rw [if_neg (normalizePath_ne_empty cwd b)] at hb
      by_cases heq : normalizePath cwd t = normalizePath cwd b
      · exact Or.inl heq
      · rw [if_neg heq] at hb
        refine Or.inr ?_
        rw [relativePath_normalized cwd b t] at hb
        simp only [Bool.and_eq_true, Bool.not_eq_true', decide_eq_true_eq] at hb
        obtain ⟨⟨hne, hsw⟩, habs⟩ := hb
        cases hfst : (dropCommon (canonSegs cwd b) (canonSegs cwd t)).1 with
        | cons x xs =>
          rw [hfst] at hsw
          simp only [List.length_cons, List.replicate_succ, List.cons_append] at hsw
          rw [jsStartsWith_dotdot_cons] at hsw
          exact Bool.noConfusion hsw
        | nil =>
          have hT_eq : canonSegs cwd t
              = canonSegs cwd b ++ (dropCommon (canonSegs cwd b) (canonSegs cwd t)).2 :=
            dropCommon_fst_nil _ _ hfst
          cases hsnd : (dropCommon (canonSegs cwd b) (canonSegs cwd t)).2 with
          | nil =>
            rw [hfst, hsnd] at hne
            simp only [List.length_nil, List.replicate_zero, List.nil_append] at hne
            exact absurd rfl hne
          | cons s rest =>
            have hsgood : goodSeg s := by
              refine canonSegs_good cwd t s ?_
              rw [hT_eq, hsnd]
              exact List.mem_append.mpr (Or.inr (by simp))
            refine ⟨s, rest, by rw [hT_eq, hsnd], ?_⟩
            rw [hfst, hsnd] at hsw
            simp only [List.length_nil, List.replicate_zero, List.nil_append] at hsw
            rw [jsStartsWith_joinC_dotdot s rest hsgood.1 hsgood.2.1] at hsw
            exact hsw
  · rintro ⟨b, hbR, hdisj⟩
    have hemp : R.isEmpty = false := by
      cases R with
      | nil => exact absurd hbR (List.not_mem_nil b)
      | cons _ _ => rfl
    unfold isWithinAllowed
    rw [hemp]
    simp only [Bool.false_eq_true, if_false]
    refine List.any_eq_true.mpr ⟨b, hbR, ?_⟩
    rw [if_neg (normalizePath_ne_empty cwd b)]
    by_cases heq : normalizePath cwd t = normalizePath cwd b
    · rw [if_pos heq]
    · rw [if_neg heq]
      rcases hdisj with h | ⟨s, rest, hTeq, hsw⟩
      · exact absurd h heq
      · have hdc : dropCommon (canonSegs cwd b) (canonSegs cwd t) = ([], s :: rest) := by
          rw [hTeq]
          exact dropCommon_append _ _
        have hrel : relativePath cwd (normalizePath cwd b) (normalizePath cwd t)
            = joinC '/' (s :: rest) := by
          rw [relativePath_normalized cwd b t, hdc]
          simp
        rw [hrel]
        have hsgood : goodSeg s := by
          refine canonSegs_good cwd t s ?_
          rw [hTeq]
          exact List.mem_append.mpr (Or.inr (by simp))
        simp [joinC_cons_ne_empty s rest hsgood.1,
          jsStartsWith_joinC_dotdot s rest hsgood.1 hsgood.2.1, hsw,
          jsIsAbsolute_joinC s rest hsgood.1 hsgood.2.2.2]

/-- Claim C1 (counterexample): `/a/..b` canonicalizes to a genuine
descendant of the authorized root `/a` — the spec's authorization
predicate accepts it — but `isWithinAllowed` rejects it, because the
relative path `..b` starts with the two characters `..`.  The claimed
"if and only if" therefore fails in the if direction. -/
theorem descendant_with_dotdot_name_rejected :
    isAuthorizedSpec "/w" "/a/..b" ["/a"] = true ∧
    canonSegs "/w" "/a" = ["a"] ∧
    canonSegs "/w" "/a/..b" = ["a", "..b"] ∧
    isWithinAllowed "/w" "/a/..b" ["/a"] = false :=
  ⟨rfl, rfl, rfl, rfl⟩

/-! ## Bounded-read lemmas -/

theorem jsTruthy_rat_pos (m : ℕ) (hm : 0 < m) : jsTruthy (.rat (m : ℚ)) = true := by
  simp only [jsTruthy, decide_eq_true_eq]
  exact_mod_cast hm.ne'

theorem jsPos_rat_pos (m : ℕ) (hm : 0 < m) : jsPos (.rat (m : ℚ)) = true := by
  simp only [jsPos, decide_eq_true_eq]
  exact_mod_cast hm

theorem jsSliceBound_rat_natCast (len m : ℕ) :
    jsSliceBound len (.rat (m : ℚ)) = min len m := by
  simp only [jsSliceBound, Rat.floor, Rat.num_natCast, Rat.den_natCast, if_pos]
  omega

/-- Claim C6: for an authorized, non-forbidden, existing file, the read
handler fails with `FileTooLarge`, carrying the actual size and the
configured limit, exactly when the stat size exceeds the limit; in that
case the response is independent of the file's contents (no bytes need
to be read to produce it); when the size is within the limit the read
succeeds. -/
theorem read_size_gate (cwd : String) (cfg : BridgeConfig) (fp : String)
    (ml : Option JsNum) (size : ℕ) (c1 c2 : String)
    (hfp : fp ≠ "")
    (hauth : isWithinAllowed cwd (normalizePath cwd fp) cfg.allowedPaths = true)
    (hext : isForbiddenExtension (normalizePath cwd fp) cfg.forbiddenExtensions = false) :
    ((fsReadHandler cwd cfg (some fp) ml true size c1 = .fileTooLarge size cfg.maxFileSize)
        ↔ size > cfg.maxFileSize) ∧
    (size > cfg.maxFileSize →
      fsReadHandler cwd cfg (some fp) ml true size c1
        = fsReadHandler cwd cfg (some fp) ml true size c2) ∧
    (size ≤ cfg.maxFileSize → ∃ content lineCount truncated,
      fsReadHandler cwd cfg (some fp) ml true size c1
        = .ok fp content size lineCount truncated) := by
  by_cases hsize : size > cfg.maxFileSize
  · have hrun : ∀ c : String, fsReadHandler cwd cfg (some fp) ml true size c
        = .fileTooLarge size cfg.maxFileSize := by
      intro c
      simp [fsReadHandler, hfp, hauth, hext, hsize]
    refine ⟨⟨fun _ => hsize, fun _ => hrun c1⟩, fun _ => ?_, fun hle => absurd hsize (by omega)⟩
    rw [hrun c1, hrun c2]
  · have hrun : ∃ content lineCount truncated,
        fsReadHandler cwd cfg (some fp) ml true size c1
          = .ok fp content size lineCount truncated := by
      simp only [fsReadHandler, hfp, hauth, hext, hsize, Bool.not_true, Bool.not_false,
        Bool.false_eq_true, if_false, if_true, ite_false, ite_true]
      exact ⟨_, _, _, rfl⟩
    refine ⟨⟨fun hcontra => ?_, fun h => absurd h hsize⟩, fun h => absurd h hsize, fun _ => hrun⟩
    obtain ⟨content, lineCount, truncated, hok⟩ := hrun
    rw [hok] at hcontra
    exact ReadOutcome.noConfusion hcontra

/-- Witness for `read_size_gate` at a concrete oversized file. -/
theorem read_size_gate_witness :
    (("/home/u/proj/a.txt" : String) ≠ "") ∧
    isWithinAllowed "/w" (normalizePath "/w" "/home/u/proj/a.txt")
      ["/home/u/proj"] = true ∧
    isForbiddenExtension (normalizePath "/w" "/home/u/proj/a.txt")
      defaultForbiddenExtensions = false ∧
    (((fsReadHandler "/w"
          { defaultConfig with allowedPaths := ["/home/u/proj"], maxFileSize := 100 }
          (some "/home/u/proj/a.txt") none true 101 "x"
        = .fileTooLarge 101 100) ↔ 101 > 100) ∧
      (101 > 100 →
        fsReadHandler "/w"
            { defaultConfig with allowedPaths := ["/home/u/proj"], maxFileSize := 100 }
            (some "/home/u/proj/a.txt") none true 101 "x"
          = fsReadHandler "/w"
              { defaultConfig with allowedPaths := ["/home/u/proj"], maxFileSize := 100 }
              (some "/home/u/proj/a.txt") none true 101 "y") ∧
      (101 ≤ 100 → ∃ content lineCount truncated,
        fsReadHandler "/w"
            { defaultConfig with allowedPaths := ["/home/u/proj"], maxFileSize := 100 }
            (some "/home/u/proj/a.txt") none true 101 "x"
          = .ok "/home/u/proj/a.txt" content 101 lineCount truncated)) :=
  ⟨by decide, by decide, by decide,
    read_size_gate "/w"
      { defaultConfig with allowedPaths := ["/home/u/proj"], maxFileSize := 100 }
      "/home/u/proj/a.txt" none 101 "x" "y" (by decide) (by decide) (by decide)⟩

theorem splitC_pieces (sep : Char) (s : String) : ∀ p ∈ splitC sep s, sep ∉ p.data := by
  intro p hp
  simp only [splitC, List.mem_map] at hp
  obtain ⟨piece, hpiece, hmk⟩ := hp
  subst hmk
  exact splitAuxC_pieces sep s.data [] (by simp) piece hpiece

theorem joinC_cons_cons (sep : Char) (x y : String) (l : List String) :
    joinC sep (x :: y :: l) = x ++ String.mk [sep] ++ joinC sep (y :: l) := rfl

/-- Splitting a join of separator-free pieces recovers the pieces. -/
theorem splitC_joinC (sep : Char) (l : List String) (hl : l ≠ [])
    (hp : ∀ p ∈ l, sep ∉ p.data) :
    splitC sep (joinC sep l) = l := by
  induction l with
  | nil => exact absurd rfl hl
  | cons x rest ih =>
    cases rest with
    | nil =>
      simp only [splitC, joinC]
      rw [splitAuxC_no_sep sep x.data [] (fun c hc hceq => (hp x (by simp)) (hceq ▸ hc))]
      simp
    | cons y rest2 =>
      have hdata : (joinC sep (x :: y :: rest2)).data
          = x.data ++ sep :: (joinC sep (y :: rest2)).data := by
        rw [joinC_cons_cons]
        simp
      simp only [splitC, hdata]
      rw [splitAuxC_append_sep sep x.data (joinC sep (y :: rest2)).data []
        (fun c hc hceq => (hp x (by simp)) (hceq ▸ hc))]
      simp only [List.reverse_nil, List.nil_append, List.map_cons]
      have hmkx : String.mk x.data = x := rfl
      rw [hmkx]
      have hrec := ih (by simp) (fun p hpm => hp p (by simp [hpm]))
      simp only [splitC] at hrec
      rw [hrec]

theorem joinC_append_singleton (sep : Char) (l : List String) (x : String) (hl : l ≠ []) :
    joinC sep (l ++ [x]) = joinC sep l ++ String.mk [sep] ++ x := by
  induction l with
  | nil => exact absurd rfl hl
  | cons y rest ih =>
    cases rest with
    | nil => rfl
    | cons z rest2 =>
      conv_lhs => rw [List.cons_append, List.cons_append, joinC_cons_cons]
      rw [← List.cons_append, ih (by simp), joinC_cons_cons]
      apply String.ext
      simp

theorem newline_marker_decomp :
    ("\n... (truncated)" : String) = String.mk ['\n'] ++ "... (truncated)" := rfl

theorem marker_no_newline : '\n' ∉ ("... (truncated)" : String).data := by decide

/-- Claim C7 (amended): with a positive integer `maxLines = m` and an
authorized, non-forbidden, existing file within the size limit: a file
of exactly `m` newline-delimited lines is returned unchanged with
`truncated = false` and `lineCount = m`; a file of `m + k` lines
(`k > 0`) is returned as its first `m` lines plus one marker line, with
`lineCount = m + 1` (the returned content's count, not the original's)
and `truncated = true` — except in the single collision case `k = 1`
with the original last line itself equal to `... (truncated)`, where
the rebuilt content coincides with the original and the flag is
`false`. -/
theorem read_line_bound (cwd : String) (cfg : BridgeConfig) (fp : String)
    (size m : ℕ) (content : String)
    (hfp : fp ≠ "")
    (hauth : isWithinAllowed cwd (normalizePath cwd fp) cfg.allowedPaths = true)
    (hext : isForbiddenExtension (normalizePath cwd fp) cfg.forbiddenExtensions = false)
    (hsize : ¬ size > cfg.maxFileSize) (hm : 0 < m) :
    ((splitC '\n' content).length = m →
      fsReadHandler cwd cfg (some fp) (some (.rat (m : ℚ))) true size content
        = .ok fp content size m false) ∧
    (∀ k, 0 < k → (splitC '\n' content).length = m + k →
      ¬(k = 1 ∧ (splitC '\n' content).getLast? = some "... (truncated)") →
      fsReadHandler cwd cfg (some fp) (some (.rat (m : ℚ))) true size content
        = .ok fp (joinC '\n' ((splitC '\n' content).take m) ++ "\n... (truncated)")
            size (m + 1) true) := by
  constructor
  · intro hlen
    have hgt : jsGtNat m (.rat (m : ℚ)) = false := by
      rw [jsGtNat_rat_natCast]
      exact decide_eq_false (by omega)
    simp only [fsReadHandler, hfp, hauth, hext, hsize, Option.getD_some,
      jsTruthy_rat_pos m hm, jsPos_rat_pos m hm, hgt, Bool.and_self,
      Bool.not_true, Bool.not_false, Bool.false_eq_true, if_false, if_true,
      ite_false, ite_true, hlen, bne_self_eq_false]
  · intro k hk hlen2 hexcl
    have hgt : jsGtNat (splitC '\n' content).length (.rat (m : ℚ)) = true := by
      rw [hlen2, jsGtNat_rat_natCast]
      exact decide_eq_true (by omega)
    have hslice : jsSliceBound (splitC '\n' content).length (.rat (m : ℚ)) = m := by
      rw [hlen2, jsSliceBound_rat_natCast]
      omega
    have htake_len : ((splitC '\n' content).take m).length = m := by
      rw [List.length_take, hlen2]
      omega
    have htake_ne : (splitC '\n' content).take m ≠ [] := by
      intro hcontra
      rw [hcontra] at htake_len
      simp at htake_len
      omega
    have hfinal_eq : joinC '\n' ((splitC '\n' content).take m) ++ "\n... (truncated)"
        = joinC '\n' ((splitC '\n' content).take m ++ ["... (truncated)"]) := by
      rw [joinC_append_singleton '\n' _ _ htake_ne]
      apply String.ext
      simp
    have hsplit_final : splitC '\n' (joinC '\n' ((splitC '\n' content).take m)
        ++ "\n... (truncated)") = (splitC '\n' content).take m ++ ["... (truncated)"] := by
      rw [hfinal_eq]
      refine splitC_joinC '\n' _ (by simp) ?_
      intro p hpm
      rcases List.mem_append.mp hpm with h | h
      · exact splitC_pieces '\n' content p (List.take_subset _ _ h)
      · have hpeq : p = "... (truncated)" := by simpa using h
        subst hpeq
        exact marker_no_newline
    have hline : (((splitC '\n' content).take m) ++ ["... (truncated)"]).length = m + 1 := by
      simp [htake_len]
    have hneq : content ≠ joinC '\n' ((splitC '\n' content).take m) ++ "\n... (truncated)" := by
      intro heq
      have hsp := congrArg (splitC '\n') heq
      rw [hsplit_final] at hsp
      have hlen3 := congrArg List.length hsp
      rw [hlen2, hline] at hlen3
      have hk1 : k = 1 := by omega
      have hlast : (splitC '\n' content).getLast? = some "... (truncated)" := by
        rw [hsp]
        exact List.getLast?_concat _
      exact hexcl ⟨hk1, hlast⟩
    have hflag : (content
        != (joinC '\n' ((splitC '\n' content).take m) ++ "\n... (truncated)")) = true :=
      bne_iff_ne.mpr hneq
    simp only [fsReadHandler, hfp, hauth, hext, hsize, Option.getD_some,
      jsTruthy_rat_pos m hm, jsPos_rat_pos m hm, hgt, hslice, Bool.and_self,
      Bool.not_true, Bool.not_false, Bool.false_eq_true, if_false, if_true,
      ite_false, ite_true, hsplit_final, hline, hflag]

/-- Claim C7 (counterexample): a file whose `maxLines + 1`-th and last
line is itself exactly `... (truncated)` is cut to its first `maxLines`
lines plus the marker — which reconstructs the original content — so
`content !== finalContent` is false and the `truncated` flag is
reported as `false`, although the file had `maxLines + k` lines with
`k = 1 > 0`. -/
theorem marker_collision_not_truncated :
    (splitC '\n' "a\n... (truncated)").length = 1 + 1 ∧
    fsReadHandler "/w" { defaultConfig with allowedPaths := ["/p"], maxFileSize := 100 }
        (some "/p/f.txt") (some (.rat 1)) true 20 "a\n... (truncated)"
      = .ok "/p/f.txt" "a\n... (truncated)" 20 2 false :=
  ⟨rfl, rfl⟩

/-- Witness for `read_line_bound` at a concrete three-line file with
`maxLines = 2`. -/
theorem read_line_bound_witness :
    (("/p/f.txt" : String) ≠ "") ∧
    isWithinAllowed "/w" (normalizePath "/w" "/p/f.txt") ["/p"] = true ∧
    isForbiddenExtension (normalizePath "/w" "/p/f.txt") defaultForbiddenExtensions = false ∧
    ¬ (20 : ℕ) > (100 : ℕ) ∧ (0 : ℕ) < 2 ∧ (0 : ℕ) < 1 ∧
    (splitC '\n' "l1\nl2\nl3").length = 2 + 1 ∧
    ¬((1 : ℕ) = 1 ∧ (splitC '\n' "l1\nl2\nl3").getLast? = some "... (truncated)") ∧
    fsReadHandler "/w" { defaultConfig with allowedPaths := ["/p"], maxFileSize := 100 }
        (some "/p/f.txt") (some (.rat ((2 : ℕ) : ℚ))) true 20 "l1\nl2\nl3"
      = .ok "/p/f.txt" (joinC '\n' ((splitC '\n' "l1\nl2\nl3").take 2) ++ "\n... (truncated)")
          20 (2 + 1) true :=
  ⟨by decide, by decide, by decide, by decide, by decide, by decide, by decide, by decide,
    (read_line_bound "/w" { defaultConfig with allowedPaths := ["/p"], maxFileSize := 100 }
      "/p/f.txt" 20 2 "l1\nl2\nl3" (by decide) (by decide) (by decide) (by decide)
      (by decide)).2 1 (by decide) (by decide) (by decide)⟩
